import Mathlib

/- Verification model of the happi-file-sync-confluence GitHub action.
   The sources modelled are:
     src/utils/confluence-markdown-parser.ts  (code-block normalizer),
     src/utils/confluence-plaintext-parser.ts (plain-text converter),
     src/confluence-api.ts                    (remote page client),
     src/syncFiles.ts                         (per-page orchestrator).
   Strings are modelled as lists of characters; the JavaScript string
   methods used by the sources (global literal replace, split, trim,
   includes) are modelled by explicit scanners below. -/

namespace HappiSync

set_option maxRecDepth 8192

/-- The single-quote character (code point 39), kept out of string literals. -/
def singleQuote : Char := Char.ofNat 39

/-- Fuel-indexed scan implementing JavaScript String.replace with a global
    literal pattern: leftmost match, non-overlapping, the replacement text is
    not rescanned.  The fuel only forces termination; with fuel at least the
    length of the input it never runs out. -/
def replaceAllAux (pat rep : List Char) : Nat → List Char → List Char
  | 0, s => s
  | _ + 1, [] => []
  | fuel + 1, c :: t =>
    if pat.isPrefixOf (c :: t) then
      rep ++ replaceAllAux pat rep fuel (t.drop (pat.length - 1))
    else
      c :: replaceAllAux pat rep fuel t

/-- JavaScript code.replace(literal-pattern-as-global-regex, rep). -/
def replaceAll (pat rep s : List Char) : List Char :=
  replaceAllAux pat rep s.length s

theorem replaceAllAux_nil (pat rep : List Char) :
    ∀ f, replaceAllAux pat rep f [] = [] := by
  intro f
  cases f with
  | zero => rfl
  | succ f => rfl

theorem replaceAllAux_congr (pat rep : List Char) :
    ∀ f g s, s.length ≤ f → s.length ≤ g →
      replaceAllAux pat rep f s = replaceAllAux pat rep g s := by
  intro f
  induction f with
  | zero =>
    intro g s hf _
    have hs : s = [] := List.eq_nil_of_length_eq_zero (Nat.le_zero.mp hf)
    subst hs
    simp [replaceAllAux_nil]
  | succ f ih =>
    intro g s hf hg
    cases s with
    | nil => simp [replaceAllAux_nil]
    | cons c t =>
      cases g with
      | zero => exact absurd hg (by simp)
      | succ g =>
        have ht : t.length ≤ f := by
          have := hf
          simp only [List.length_cons] at this
          omega
        have htg : t.length ≤ g := by
          have := hg
          simp only [List.length_cons] at this
          omega
        by_cases h : pat.isPrefixOf (c :: t)
        · simp only [replaceAllAux, h, if_true]
          have hd : (t.drop (pat.length - 1)).length ≤ t.length := by
            simp [List.length_drop]
          exact congrArg (rep ++ ·)
            (ih g (t.drop (pat.length - 1)) (le_trans hd ht) (le_trans hd htg))
        · simp only [replaceAllAux, h, if_false]
          exact congrArg (c :: ·) (ih g t ht htg)

theorem replaceAll_nil (pat rep : List Char) : replaceAll pat rep [] = [] := rfl

theorem replaceAll_pos (pat rep : List Char) (c : Char) (t : List Char)
    (h : pat.isPrefixOf (c :: t)) :
    replaceAll pat rep (c :: t) =
      rep ++ replaceAll pat rep (t.drop (pat.length - 1)) := by
  unfold replaceAll
  simp only [List.length_cons, replaceAllAux, h, if_true]
  exact congrArg (rep ++ ·)
    (replaceAllAux_congr pat rep t.length _ _ (by simp [List.length_drop]) le_rfl)

theorem replaceAll_neg (pat rep : List Char) (c : Char) (t : List Char)
    (h : ¬ pat.isPrefixOf (c :: t)) :
    replaceAll pat rep (c :: t) = c :: replaceAll pat rep t := by
  unfold replaceAll
  simp only [List.length_cons, replaceAllAux, h, Bool.false_eq_true, if_false]

theorem sub_cons_split {b : List Char} {c : Char} {t : List Char}
    (h : b <:+: c :: t) : b <+: c :: t ∨ b <:+: t := by
  obtain ⟨u, v, huv⟩ := h
  cases u with
  | nil =>
    left
    exact ⟨v, by simpa using huv⟩
  | cons x u' =>
    right
    have hx : x = c ∧ u' ++ b ++ v = t := by
      have := huv
      simp only [List.cons_append] at this
      exact ⟨(List.cons.injEq _ _ _ _).mp this |>.1, (List.cons.injEq _ _ _ _).mp this |>.2⟩
    exact ⟨u', v, hx.2⟩

theorem sub_of_sub_cons {b : List Char} {c : Char} {t : List Char}
    (h : b <:+: t) : b <:+: c :: t := by
  obtain ⟨u, v, huv⟩ := h
  exact ⟨c :: u, v, by simp [huv]⟩

theorem sub_append_left {b x y : List Char} (h : b <:+: y) : b <:+: x ++ y := by
  obtain ⟨u, v, huv⟩ := h
  exact ⟨x ++ u, v, by simp [huv, List.append_assoc]⟩

theorem sub_of_pre {b s : List Char} (h : b <+: s) : b <:+: s := by
  obtain ⟨v, hv⟩ := h
  exact ⟨[], v, by simpa using hv⟩

theorem sub_nil_eq {b : List Char} (h : b <:+: ([] : List Char)) : b = [] := by
  obtain ⟨u, v, huv⟩ := h
  have := List.append_eq_nil.mp ((List.append_eq_nil.mp huv).1)
  exact this.2

/-- A prefix that is a suffix of the marker list b survives the scan as long
    as no pattern match is compatible with any suffix of b. -/
theorem replaceAll_drop_pre (pat rep b : List Char)
    (h3 : ∀ q, q < b.length → ¬ (pat <+: b.drop q))
    (h4 : ∀ q, q < b.length → ¬ (b.drop q <+: pat)) :
    ∀ n s q, s.length ≤ n → q < b.length → b.drop q <+: s →
      b.drop q <+: replaceAll pat rep s := by
  intro n
  induction n with
  | zero =>
    intro s q hs hq hpre
    have hsnil : s = [] := List.eq_nil_of_length_eq_zero (Nat.le_zero.mp hs)
    subst hsnil
    have : b.drop q = [] := List.prefix_nil.mp hpre
    have hlen := congrArg List.length this
    simp only [List.length_drop, List.length_nil] at hlen
    omega
  | succ n ih =>
    intro s q hs hq hpre
    have hbq : b.drop q ≠ [] := by
      intro he
      have hlen := congrArg List.length he
      simp only [List.length_drop, List.length_nil] at hlen
      omega
    cases s with
    | nil => exact absurd (List.prefix_nil.mp hpre) hbq
    | cons c t =>
      by_cases hm : pat.isPrefixOf (c :: t)
      · have hp : pat <+: c :: t := List.isPrefixOf_iff_prefix.mp hm
        rcases Nat.le_total pat.length (b.drop q).length with hle | hle
        · exact absurd (List.prefix_of_prefix_length_le hp hpre hle) (h3 q hq)
        · exact absurd (List.prefix_of_prefix_length_le hpre hp hle) (h4 q hq)
      · rw [replaceAll_neg pat rep c t hm]
        obtain ⟨x, l, hxl⟩ := List.exists_cons_of_ne_nil hbq
        rw [hxl] at hpre
        rw [ List.cons_prefix_cons] at hpre
        have hl : l = b.drop (q + 1) := by
          have : (b.drop q).tail = l := by rw [hxl]; rfl
          rw [← this, List.tail_drop]
        rw [hxl, List.cons_prefix_cons]
        refine ⟨hpre.1, ?_⟩
        by_cases hql : q + 1 < b.length
        · have ht : t.length ≤ n := by
            have := hs
            simp only [List.length_cons] at this
            omega
          have := ih t (q + 1) ht hql (hl ▸ hpre.2)
          exact hl ▸ this
        · have : b.drop (q + 1) = [] := by
            apply List.drop_eq_nil_of_le
            omega
          rw [hl, this]
          exact List.nil_prefix

/-- The marker list b survives the whole scan untouched when no match of the
    pattern can intersect an occurrence of b. -/
theorem replaceAll_keeps_sub (pat rep b : List Char) (hbne : b ≠ [])
    (h1 : ∀ p, p < pat.length → ¬ (pat.drop p <+: b))
    (h2 : ¬ (b <:+: pat))
    (h3 : ∀ q, q < b.length → ¬ (pat <+: b.drop q))
    (h4 : ∀ q, q < b.length → ¬ (b.drop q <+: pat)) :
    ∀ n s, s.length ≤ n → b <:+: s → b <:+: replaceAll pat rep s := by
  intro n
  induction n with
  | zero =>
    intro s hs hbs
    have hsnil : s = [] := List.eq_nil_of_length_eq_zero (Nat.le_zero.mp hs)
    subst hsnil
    exact absurd (sub_nil_eq hbs) hbne
  | succ n ih =>
    intro s hs hbs
    cases s with
    | nil => exact absurd (sub_nil_eq hbs) hbne
    | cons c t =>
      by_cases hm : pat.isPrefixOf (c :: t)
      · have hp : pat <+: c :: t := List.isPrefixOf_iff_prefix.mp hm
        obtain ⟨s', hs'⟩ := hp
        have hpatne : pat ≠ [] := by
          intro hpe
          exact h3 0 (List.length_pos.mpr hbne) (by simp [hpe])
        obtain ⟨ph, pt, hph⟩ := List.exists_cons_of_ne_nil hpatne
        have hts : t = pt ++ s' := by
          rw [hph] at hs'
          simp only [List.cons_append] at hs'
          exact ((List.cons.injEq _ _ _ _).mp hs').2.symm
        have hdrop : t.drop (pat.length - 1) = s' := by
          rw [hts, hph]
          simp only [List.length_cons, Nat.add_sub_cancel]
          exact List.drop_left pt s'
        have hslen : s'.length ≤ n := by
          have h1l := congrArg List.length hs'
          simp only [List.length_append, List.length_cons] at h1l
          have hplen : 0 < pat.length := List.length_pos.mpr hpatne
          have := hs
          simp only [List.length_cons] at this
          omega
        rw [replaceAll_pos pat rep c t hm, hdrop]
        obtain ⟨u, v, huv⟩ := hbs
        have huv' : u ++ (b ++ v) = pat ++ s' := by
          rw [← List.append_assoc, huv, hs']
        rcases List.append_eq_append_iff.mp huv' with ⟨a', ha1, ha2⟩ | ⟨c', _, hc2⟩
        · rcases List.append_eq_append_iff.mp ha2 with ⟨w, hw1, _⟩ | ⟨w, hw1, hw2⟩
          · exact absurd ⟨u, w, by rw [ha1, hw1, List.append_assoc]⟩ h2
          · by_cases ha'e : a' = []
            · subst ha'e
              have hbw : b = w := by simpa using hw1
              have : b <:+: s' := ⟨[], v, by simp [hw2, hbw]⟩
              exact sub_append_left (ih s' hslen this)
            · have ha'l : 0 < a'.length := List.length_pos.mpr ha'e
              have hul : u.length < pat.length := by
                have := congrArg List.length ha1
                simp only [List.length_append] at this
                omega
              have ha'd : pat.drop u.length = a' := by
                rw [ha1]
                exact List.drop_left u a'
              exact absurd (ha'd ▸ ⟨w, hw1.symm⟩) (h1 u.length hul)
        · have : b <:+: s' := ⟨c', v, by rw [List.append_assoc]; exact hc2.symm⟩
          exact sub_append_left (ih s' hslen this)
      · rw [replaceAll_neg pat rep c t hm]
        rcases sub_cons_split hbs with hpre | htail
        · have hb0 : b.drop 0 <+: c :: t := by simpa using hpre
          have := replaceAll_drop_pre pat rep b h3 h4 (c :: t).length (c :: t) 0
            le_rfl (List.length_pos.mpr hbne) hb0
          rw [List.drop_zero] at this
          rw [← replaceAll_neg pat rep c t hm]
          exact sub_of_pre this
        · exact sub_of_sub_cons
            (ih t (by simp only [List.length_cons] at hs; omega) htail)

/-- Text none of whose characters can start a match is copied verbatim. -/
theorem replaceAll_copies (rep : List Char) (ph : Char) (pt : List Char) :
    ∀ u t, (∀ x ∈ u, x ≠ ph) →
      replaceAll (ph :: pt) rep (u ++ t) = u ++ replaceAll (ph :: pt) rep t := by
  intro u
  induction u with
  | nil => simp
  | cons x u' ih =>
    intro t hx
    have hnm : ¬ (ph :: pt).isPrefixOf (x :: (u' ++ t)) := by
      intro hcontra
      have hc := List.isPrefixOf_iff_prefix.mp hcontra
      rw [ List.cons_prefix_cons] at hc
      exact hx x (by simp) hc.1.symm
    rw [List.cons_append, replaceAll_neg _ _ _ _ hnm,
      ih t (fun y hy => hx y (by simp [hy])), List.cons_append]

/-- When the pattern itself opens the marker and the remainder of the marker
    cannot start or continue a match, the scan rewrites every occurrence of
    pat ++ btail into rep ++ btail. -/
theorem replaceAll_hits_occurrence (rep btail : List Char) (ph : Char) (pt : List Char)
    (hbt : ∀ x ∈ btail, x ≠ ph)
    (h1 : ∀ p, p < (ph :: pt).length → 0 < p →
      ¬ ((ph :: pt).drop p <+: ((ph :: pt) ++ btail)))
    (h2 : ¬ (((ph :: pt) ++ btail) <:+: (ph :: pt))) :
    ∀ n s, s.length ≤ n → ((ph :: pt) ++ btail) <:+: s →
      (rep ++ btail) <:+: replaceAll (ph :: pt) rep s := by
  intro n
  induction n with
  | zero =>
    intro s hs hbs
    have hsnil : s = [] := List.eq_nil_of_length_eq_zero (Nat.le_zero.mp hs)
    subst hsnil
    exact absurd (sub_nil_eq hbs) (by simp)
  | succ n ih =>
    intro s hs hbs
    cases s with
    | nil => exact absurd (sub_nil_eq hbs) (by simp)
    | cons c t =>
      by_cases hm : (ph :: pt).isPrefixOf (c :: t)
      · have hp : (ph :: pt) <+: c :: t := List.isPrefixOf_iff_prefix.mp hm
        obtain ⟨s', hs'⟩ := hp
        have hdrop : t.drop ((ph :: pt).length - 1) = s' := by
          have hts : t = pt ++ s' := by
            simp only [List.cons_append] at hs'
            exact ((List.cons.injEq _ _ _ _).mp hs').2.symm
          rw [hts]
          simp only [List.length_cons, Nat.add_sub_cancel]
          exact List.drop_left pt s'
        have hslen : s'.length ≤ n := by
          have h1l := congrArg List.length hs'
          simp only [List.length_append, List.length_cons] at h1l
          have := hs
          simp only [List.length_cons] at this
          omega
        rw [replaceAll_pos _ rep c t hm, hdrop]
        obtain ⟨u, v, huv⟩ := hbs
        have huv' : u ++ (((ph :: pt) ++ btail) ++ v) = (ph :: pt) ++ s' := by
          rw [← List.append_assoc, huv, hs']
        rcases List.append_eq_append_iff.mp huv' with ⟨a', ha1, ha2⟩ | ⟨c', _, hc2⟩
        · rcases List.append_eq_append_iff.mp ha2 with ⟨w, hw1, _⟩ | ⟨w, hw1, hw2⟩
          · refine absurd ⟨u, w, ?_⟩ h2
            conv_rhs => rw [ha1, hw1]
            rw [List.append_assoc]
          · by_cases ha'e : a' = []
            · subst ha'e
              have hbw : (ph :: pt) ++ btail = w := by simpa using hw1
              have hins : ((ph :: pt) ++ btail) <:+: s' :=
                ⟨[], v, by simp [hw2, ← hbw]⟩
              exact sub_append_left (ih s' hslen hins)
            · by_cases hue : u = []
              · subst hue
                have ha'p : a' = ph :: pt := by simpa using ha1.symm
                subst ha'p
                have hwb : w = btail := (List.append_cancel_left hw1).symm
                rw [hw2, hwb, replaceAll_copies rep ph pt btail v hbt]
                exact ⟨[], replaceAll (ph :: pt) rep v, by simp [List.append_assoc]⟩
              · have ha'l : 0 < a'.length := List.length_pos.mpr ha'e
                have hul : u.length < (ph :: pt).length := by
                  have := congrArg List.length ha1
                  simp only [List.length_append] at this
                  omega
                have hu0 : 0 < u.length := List.length_pos.mpr hue
                have ha'd : (ph :: pt).drop u.length = a' := by
                  rw [ha1]
                  exact List.drop_left u a'
                exact absurd (ha'd ▸ ⟨w, hw1.symm⟩) (h1 u.length hul hu0)
        · have hins : ((ph :: pt) ++ btail) <:+: s' :=
            ⟨c', v, by rw [List.append_assoc]; exact hc2.symm⟩
          exact sub_append_left (ih s' hslen hins)
      · rw [replaceAll_neg _ rep c t hm]
        rcases sub_cons_split hbs with hpre | htail
        · have : (ph :: pt) <+: c :: t :=
            List.IsPrefix.trans ⟨btail, rfl⟩ hpre
          exact absurd (List.isPrefixOf_iff_prefix.mpr this) hm
        · exact sub_of_sub_cons
            (ih t (by simp only [List.length_cons] at hs; omega) htail)

/- Entity patterns decoded by the Storage Normalizer
   (src/utils/confluence-markdown-parser.ts, lines 33-38). -/

def entLt : List Char := ("&lt;").toList

def entGt : List Char := ("&gt;").toList

def entQuot : List Char := ("&quot;").toList

def entNum39 : List Char := ("&#39;").toList

def entAmp : List Char := ("&amp;").toList

/-- Entity decoding applied to the captured code text of a fenced block:
    the five global literal replaces of the source, in source order, with
    the ampersand entity decoded last. -/
def decodeCodeEntities (code : List Char) : List Char :=
  replaceAll entAmp (("&").toList)
    (replaceAll entNum39 [singleQuote]
      (replaceAll entQuot (("\"").toList)
        (replaceAll entGt ((">").toList)
          (replaceAll entLt (("<").toList) code))))

/-- The trim of leading and trailing newline runs applied to the decoded
    code text (source line 41, regex ^newline+ or newline+$ replaced by
    nothing). -/
def trimCodeNewlines (l : List Char) : List Char :=
  ((l.dropWhile (fun c => c == '\n')).reverse.dropWhile (fun c => c == '\n')).reverse

def macroHead : List Char :=
  ("<ac:structured-macro ac:name=\"code\"><ac:plain-text-body><![CDATA[").toList

def macroTail : List Char :=
  ("]]></ac:plain-text-body></ac:structured-macro>").toList

/-- The replacement emitted for one matched fenced block (source lines
    30-44): decode entities, trim boundary newlines, wrap in the code macro
    with a CDATA body.  The captured language class is dropped. -/
def renderCodeMacro (code : List Char) : List Char :=
  macroHead ++ trimCodeNewlines (decodeCodeEntities code) ++ macroTail

theorem keeps_in_dropWhile (p : Char → Bool) (g : List Char) (hg : g ≠ [])
    (hc : ∀ x ∈ g, p x = false) :
    ∀ l, g <:+: l → g <:+: l.dropWhile p := by
  intro l
  induction l with
  | nil =>
    intro h
    exact absurd (sub_nil_eq h) hg
  | cons c t ih =>
    intro h
    by_cases hpc : p c = true
    · rw [List.dropWhile_cons_of_pos hpc]
      rcases sub_cons_split h with hpre | htail
      · obtain ⟨x, l', hxl⟩ := List.exists_cons_of_ne_nil hg
        rw [hxl] at hpre
        rw [ List.cons_prefix_cons] at hpre
        have : p x = false := hc x (by rw [hxl]; simp)
        rw [hpre.1] at this
        rw [this] at hpc
        exact absurd hpc (by simp)
      · exact ih htail
    · rw [List.dropWhile_cons_of_neg hpc]
      exact h

theorem keeps_in_reverse (g l : List Char) (h : g <:+: l) :
    g.reverse <:+: l.reverse := by
  obtain ⟨u, v, huv⟩ := h
  exact ⟨v.reverse, u.reverse, by rw [← huv]; simp [List.reverse_append, List.append_assoc]⟩

theorem keeps_in_trim (g : List Char) (hg : g ≠ [])
    (hc : ∀ x ∈ g, (x == '\n') = false) :
    ∀ l, g <:+: l → g <:+: trimCodeNewlines l := by
  intro l h
  have h1 := keeps_in_dropWhile (fun c => c == '\n') g hg hc l h
  have h2 := keeps_in_reverse g _ h1
  have h3 := keeps_in_dropWhile (fun c => c == '\n') g.reverse (by simpa using hg)
    (fun x hx => hc x (List.mem_reverse.mp hx)) _ h2
  have h4 := keeps_in_reverse g.reverse _ h3
  rw [List.reverse_reverse] at h4
  exact h4

/-- Claim C1 core: after the five ordered replaces, every occurrence of the
    literal text of an escaped lt entity has become the entity text itself,
    because the ampersand entity is decoded last. -/
theorem decode_turns_amp_lt_into_lt (code : List Char)
    (h : ("&amp;lt;").toList <:+: code) :
    ("&lt;").toList <:+: decodeCodeEntities code := by
  unfold decodeCodeEntities
  have s1 := replaceAll_keeps_sub entLt (("<").toList) (("&amp;lt;").toList)
    (by decide) (by decide) (by decide) (by decide) (by decide)
    code.length code le_rfl h
  have s2 := replaceAll_keeps_sub entGt ((">").toList) (("&amp;lt;").toList)
    (by decide) (by decide) (by decide) (by decide) (by decide)
    _ _ le_rfl s1
  have s3 := replaceAll_keeps_sub entQuot (("\"").toList) (("&amp;lt;").toList)
    (by decide) (by decide) (by decide) (by decide) (by decide)
    _ _ le_rfl s2
  have s4 := replaceAll_keeps_sub entNum39 [singleQuote] (("&amp;lt;").toList)
    (by decide) (by decide) (by decide) (by decide) (by decide)
    _ _ le_rfl s3
  have hmark : ("&amp;lt;").toList = ('&' :: ("amp;").toList) ++ ("lt;").toList := by decide
  rw [hmark] at s4
  have s5 := replaceAll_hits_occurrence (("&").toList) (("lt;").toList) '&' (("amp;").toList)
    (by decide) (by decide) (by decide)
    _ _ le_rfl s4
  have hout : ("&").toList ++ ("lt;").toList = ("&lt;").toList := by decide
  rw [hout] at s5
  have hpat : entAmp = '&' :: ("amp;").toList := by decide
  rw [hpat]
  exact s5

/-- Claim C1: for every fenced code block whose captured code text contains
    the literal sequence of characters of an ampersand-escaped lt entity
    (amp entity followed by lt-semicolon text), the normalizer output for
    that block contains the literal lt-entity text.  The HTML entities in
    captured code text are decoded in the fixed source order lt, gt, quot,
    numeric-39, and last amp, so the amp entity is never decoded before the
    others. -/
theorem claim_C1_entity_decode_order (code : List Char)
    (h : ("&amp;lt;").toList <:+: code) :
    ("&lt;").toList <:+: decodeCodeEntities code ∧
    ("&lt;").toList <:+: renderCodeMacro code := by
  have hdec := decode_turns_amp_lt_into_lt code h
  refine ⟨hdec, ?_⟩
  unfold renderCodeMacro
  have htrim := keeps_in_trim (("&lt;").toList) (by decide) (by decide)
    (decodeCodeEntities code) hdec
  rw [List.append_assoc]
  exact sub_append_left (by
    obtain ⟨u, v, huv⟩ := htrim
    exact ⟨u, v ++ macroTail, by rw [← huv]; simp [List.append_assoc]⟩)

def c1SampleCode : List Char := ("x &amp;lt; y").toList

/-- Witness for C1 at a concrete captured code text. -/
theorem claim_C1_entity_decode_order_witness :
    (("&amp;lt;").toList <:+: c1SampleCode) ∧
    (("&lt;").toList <:+: decodeCodeEntities c1SampleCode ∧
     ("&lt;").toList <:+: renderCodeMacro c1SampleCode) :=
  ⟨by decide, claim_C1_entity_decode_order c1SampleCode (by decide)⟩

/- The Storage Normalizer document scan (source lines 28-45): the global
   regex that matches pre-code spans, optionally carrying a language class,
   with a lazy body capture ended by the first closing pair of tags. -/

def codeOpenTag : List Char := ("<pre><code").toList

def codeCloseTag : List Char := ("</code></pre>").toList

def classMarker : List Char := ("class=\"language-").toList

/-- The word-character class of the regex language group. -/
def isWordChar (c : Char) : Bool := c.isAlphanum || c == '_'

/-- The optional language-class group of the normalizer regex: one or more
    whitespace characters, the class attribute opening, one or more word
    characters, a closing double quote; when the group cannot match, the
    regex falls back to the empty alternative only if the next character is
    not whitespace. -/
def afterOptionalLang : List Char → Option (List Char)
  | [] => some []
  | c :: t =>
    if c.isWhitespace then
      let s2 := (c :: t).dropWhile Char.isWhitespace
      if classMarker.isPrefixOf s2 then
        let s3 := s2.drop classMarker.length
        let w := s3.takeWhile isWordChar
        if w.isEmpty then none
        else
          let s4 := s3.drop w.length
          if s4.head? = some '\"' then some s4.tail else none
      else none
    else some (c :: t)

/-- Fuel-indexed search for the first occurrence of a pattern, returning the
    text before it and the text after it: the lazy body capture of the
    normalizer regex. -/
def splitOnceAux (pat : List Char) : Nat → List Char → Option (List Char × List Char)
  | 0, s => if pat.isPrefixOf s then some ([], s.drop pat.length) else none
  | fuel + 1, s =>
    if pat.isPrefixOf s then some ([], s.drop pat.length)
    else
      match s with
      | [] => none
      | c :: t => (splitOnceAux pat fuel t).map (fun pr => (c :: pr.1, pr.2))

def splitOnce (pat s : List Char) : Option (List Char × List Char) :=
  splitOnceAux pat s.length s

theorem splitOnce_pos (pat s : List Char) (h : pat.isPrefixOf s) :
    splitOnce pat s = some ([], s.drop pat.length) := by
  unfold splitOnce
  cases hl : s.length with
  | zero => simp [splitOnceAux, h]
  | succ f => simp [splitOnceAux, h]

theorem splitOnce_neg_nil (pat : List Char) (h : ¬ pat.isPrefixOf ([] : List Char)) :
    splitOnce pat [] = none := by
  simp [splitOnce, splitOnceAux, h]

theorem splitOnce_neg_cons (pat : List Char) (c : Char) (t : List Char)
    (h : ¬ pat.isPrefixOf (c :: t)) :
    splitOnce pat (c :: t) = (splitOnce pat t).map (fun pr => (c :: pr.1, pr.2)) := by
  simp [splitOnce, splitOnceAux, h]

theorem splitOnce_some (pat : List Char) (hp : pat ≠ []) :
    ∀ s a b, splitOnce pat s = some (a, b) → a ++ pat ++ b = s := by
  intro s
  induction s with
  | nil =>
    intro a b hab
    rw [splitOnce_neg_nil pat (by
      intro hc
      exact hp (List.prefix_nil.mp (List.isPrefixOf_iff_prefix.mp hc)))] at hab
    exact absurd hab (by simp)
  | cons c t ih =>
    intro a b hab
    by_cases h : pat.isPrefixOf (c :: t)
    · rw [splitOnce_pos pat _ h] at hab
      obtain ⟨r, hr⟩ := List.isPrefixOf_iff_prefix.mp h
      have hd : (c :: t).drop pat.length = r := by
        rw [← hr]
        exact List.drop_left pat r
      simp only [Option.some.injEq, Prod.mk.injEq] at hab
      rw [← hab.1, ← hab.2, hd]
      simpa using hr
    · rw [splitOnce_neg_cons pat c t h] at hab
      cases hsp : splitOnce pat t with
      | none => rw [hsp] at hab; exact absurd hab (by simp)
      | some pr =>
        rw [hsp] at hab
        simp at hab
        have := ih pr.1 pr.2 (by rw [hsp])
        rw [← hab.1, ← hab.2]
        simpa using congrArg (c :: ·) this

theorem splitOnce_at (pat : List Char) (_hp : pat ≠ []) :
    ∀ a T, (∀ p, p < a.length → ¬ (pat <+: (a ++ pat ++ T).drop p)) →
      splitOnce pat (a ++ pat ++ T) = some (a, T) := by
  intro a
  induction a with
  | nil =>
    intro T _
    have h : pat.isPrefixOf (([] : List Char) ++ pat ++ T) := by
      apply List.isPrefixOf_iff_prefix.mpr
      exact ⟨T, by simp⟩
    rw [splitOnce_pos pat _ h]
    simp [List.append_assoc, List.drop_left]
  | cons x a' ih =>
    intro T hocc
    have hnm : ¬ pat.isPrefixOf ((x :: a') ++ pat ++ T) := by
      intro hc
      exact hocc 0 (by simp) (by
        simpa using List.isPrefixOf_iff_prefix.mp hc)
    have hstep : (x :: a') ++ pat ++ T = x :: (a' ++ pat ++ T) := by simp
    rw [hstep] at hnm ⊢
    rw [splitOnce_neg_cons pat _ _ hnm]
    have hrec := ih T (fun p hpl => by
      have := hocc (p + 1) (by simp only [List.length_cons]; omega)
      rw [hstep] at this
      simpa using this)
    rw [hrec]
    rfl

/-- One attempted match of the normalizer regex at the head of the text:
    the literal opening tags, the optional language group, the closing
    angle bracket, then the lazy body capture up to the first closing tags.
    Returns the captured code text and the rest of the document. -/
def matchCode (s : List Char) : Option (List Char × List Char) :=
  if codeOpenTag.isPrefixOf s then
    match afterOptionalLang (s.drop codeOpenTag.length) with
    | none => none
    | some s2 =>
      if s2.head? = some '>' then splitOnce codeCloseTag s2.tail else none
  else none

theorem afterOptionalLang_le (x y : List Char) (h : afterOptionalLang x = some y) :
    y.length ≤ x.length := by
  cases x with
  | nil =>
    simp only [afterOptionalLang, Option.some.injEq] at h
    subst h
    exact le_rfl
  | cons c t =>
    simp only [afterOptionalLang] at h
    by_cases hws : c.isWhitespace
    · simp only [hws, if_true] at h
      by_cases hcm : classMarker.isPrefixOf ((c :: t).dropWhile Char.isWhitespace)
      · simp only [hcm, if_true] at h
        by_cases hw : (((c :: t).dropWhile Char.isWhitespace).drop
            classMarker.length).takeWhile isWordChar |>.isEmpty
        · simp [hw] at h
        · simp only [hw, Bool.false_eq_true, if_false] at h
          set s3 := ((c :: t).dropWhile Char.isWhitespace).drop classMarker.length with hs3
          set s4 := s3.drop (s3.takeWhile isWordChar).length with hs4
          by_cases hq : s4.head? = some '\"'
          · rw [if_pos hq] at h
            have hyt : s4.tail = y := (Option.some.injEq _ _).mp h
            have l1 : s4.tail.length ≤ s4.length := by simp [List.length_tail]
            have l2 : s4.length ≤ s3.length := by rw [hs4]; simp [List.length_drop]
            have l3 : s3.length ≤ ((c :: t).dropWhile Char.isWhitespace).length := by
              rw [hs3]; simp [List.length_drop]
            have l4 : ((c :: t).dropWhile Char.isWhitespace).length ≤ (c :: t).length :=
              List.IsSuffix.length_le (List.dropWhile_suffix _)
            rw [← hyt]
            omega
          · rw [if_neg hq] at h
            exact absurd h (by simp)
      · simp [hcm] at h
    · simp only [hws, Bool.false_eq_true, if_false, Option.some.injEq] at h
      subst h
      exact le_rfl

theorem matchCode_rest_lt (s : List Char) (pr : List Char × List Char)
    (h : matchCode s = some pr) : pr.2.length < s.length := by
  unfold matchCode at h
  by_cases hop : codeOpenTag.isPrefixOf s
  · simp only [hop, if_true] at h
    cases hal : afterOptionalLang (s.drop codeOpenTag.length) with
    | none => rw [hal] at h; exact absurd h (by simp)
    | some s2 =>
      rw [hal] at h
      have hs2 := afterOptionalLang_le _ _ hal
      have hslen : codeOpenTag.length ≤ s.length :=
        List.IsPrefix.length_le (List.isPrefixOf_iff_prefix.mp hop)
      by_cases hgt : s2.head? = some '>'
      · simp only [hgt, if_pos] at h
        have hsp := splitOnce_some codeCloseTag (by decide) s2.tail pr.1 pr.2 h
        have hlen := congrArg List.length hsp
        simp only [List.length_append] at hlen
        have hcl : codeCloseTag.length = 13 := by decide
        have hol : codeOpenTag.length = 10 := by decide
        have hs2ne : s2 ≠ [] := by
          intro he
          rw [he] at hgt
          exact absurd hgt (by simp)
        have htl : s2.tail.length + 1 = s2.length := by
          cases s2 with
          | nil => exact absurd rfl hs2ne
          | cons a b => simp
        simp only [List.length_drop] at hs2
        omega
      · simp [hgt] at h
  · simp [hop] at h

/-- Fuel-indexed document scan of the Storage Normalizer: at each position
    try the regex; on a match emit the code macro and continue after the
    match, otherwise copy one character. -/
def normalizeAux : Nat → List Char → List Char
  | 0, s => s
  | fuel + 1, s =>
    match matchCode s with
    | some pr => renderCodeMacro pr.1 ++ normalizeAux fuel pr.2
    | none =>
      match s with
      | [] => []
      | c :: t => c :: normalizeAux fuel t

/-- The code-block rewriting pass of convertMarkdownToConfluenceStorage
    (source lines 28-45) applied to the intermediate HTML. -/
def normalizeCodeBlocks (s : List Char) : List Char :=
  normalizeAux s.length s

theorem matchCode_nil : matchCode [] = none := by decide

theorem normalizeAux_nil : ∀ f, normalizeAux f [] = [] := by
  intro f
  cases f with
  | zero => rfl
  | succ f => simp [normalizeAux, matchCode_nil]

theorem normalizeAux_congr :
    ∀ f g s, s.length ≤ f → s.length ≤ g → normalizeAux f s = normalizeAux g s := by
  intro f
  induction f with
  | zero =>
    intro g s hf _
    have hs : s = [] := List.eq_nil_of_length_eq_zero (Nat.le_zero.mp hf)
    subst hs
    simp [normalizeAux_nil]
  | succ f ih =>
    intro g s hf hg
    cases s with
    | nil => simp [normalizeAux_nil]
    | cons c t =>
      cases g with
      | zero => exact absurd hg (by simp)
      | succ g =>
        cases hmc : matchCode (c :: t) with
        | some pr =>
          simp only [normalizeAux, hmc]
          have hlt := matchCode_rest_lt _ _ hmc
          simp only [List.length_cons] at hlt hf hg
          exact congrArg (renderCodeMacro pr.1 ++ ·)
            (ih g pr.2 (by omega) (by omega))
        | none =>
          simp only [normalizeAux, hmc]
          simp only [List.length_cons] at hf hg
          exact congrArg (c :: ·) (ih g t (by omega) (by omega))

theorem normalize_nil : normalizeCodeBlocks [] = [] := rfl

theorem normalize_found (s : List Char) (pr : List Char × List Char)
    (h : matchCode s = some pr) :
    normalizeCodeBlocks s = renderCodeMacro pr.1 ++ normalizeCodeBlocks pr.2 := by
  cases s with
  | nil => rw [matchCode_nil] at h; exact absurd h (by simp)
  | cons c t =>
    unfold normalizeCodeBlocks
    simp only [List.length_cons, normalizeAux, h]
    have hlt := matchCode_rest_lt _ _ h
    simp only [List.length_cons] at hlt
    exact congrArg (renderCodeMacro pr.1 ++ ·)
      (normalizeAux_congr t.length pr.2.length pr.2 (by omega) le_rfl)

theorem normalize_skip (c : Char) (t : List Char)
    (h : matchCode (c :: t) = none) :
    normalizeCodeBlocks (c :: t) = c :: normalizeCodeBlocks t := by
  unfold normalizeCodeBlocks
  simp only [List.length_cons, normalizeAux, h]

theorem matchCode_none_of_no_open (s : List Char)
    (h : ¬ (codeOpenTag <+: s)) : matchCode s = none := by
  unfold matchCode
  rw [if_neg (fun hc => h (List.isPrefixOf_iff_prefix.mp hc))]

/-- Text in which the opening tags never occur is copied verbatim by the
    normalizer scan. -/
theorem normalize_copies (A : List Char) :
    ∀ T, (∀ p, p < A.length → ¬ (codeOpenTag <+: (A ++ T).drop p)) →
      normalizeCodeBlocks (A ++ T) = A ++ normalizeCodeBlocks T := by
  induction A with
  | nil => intro T _; simp
  | cons c A' ih =>
    intro T hA
    have h0 : ¬ (codeOpenTag <+: (c :: A') ++ T) := by
      have := hA 0 (by simp)
      simpa using this
    have hmc : matchCode ((c :: A') ++ T) = none :=
      matchCode_none_of_no_open _ h0
    rw [List.cons_append] at hmc ⊢
    rw [normalize_skip _ _ hmc]
    rw [ih T (fun p hp => by
      have := hA (p + 1) (by simp only [List.length_cons]; omega)
      simpa using this), List.cons_append]

/-- A plain pre-code span heads the text: the regex matches it and captures
    exactly the body, provided the closing tags do not occur early. -/
theorem matchCode_at_block (code T : List Char)
    (hc : ∀ p, p < code.length → ¬ (codeCloseTag <+: (code ++ codeCloseTag ++ T).drop p)) :
    matchCode (codeOpenTag ++ '>' :: (code ++ codeCloseTag ++ T)) = some (code, T) := by
  unfold matchCode
  have hop : codeOpenTag.isPrefixOf (codeOpenTag ++ '>' :: (code ++ codeCloseTag ++ T)) := by
    exact List.isPrefixOf_iff_prefix.mpr ⟨_, rfl⟩
  rw [if_pos hop, List.drop_left]
  have hal : afterOptionalLang ('>' :: (code ++ codeCloseTag ++ T)) =
      some ('>' :: (code ++ codeCloseTag ++ T)) := by
    simp only [afterOptionalLang]
    rw [if_neg (by decide)]
  rw [hal]
  simp only [List.head?_cons, List.tail_cons, if_pos]
  have hsp : ∀ p, p < code.length → ¬ (codeCloseTag <+: (code ++ codeCloseTag ++ T).drop p) :=
    hc
  exact splitOnce_at codeCloseTag (by decide) code T hsp

/-- A plain fenced block as the markdown engine emits it into the
    intermediate HTML. -/
def preCodeBlock (code : List Char) : List Char :=
  ("<pre><code>").toList ++ code ++ codeCloseTag

theorem preCodeBlock_shape (code T : List Char) :
    preCodeBlock code ++ T = codeOpenTag ++ '>' :: (code ++ codeCloseTag ++ T) := by
  simp [preCodeBlock, codeOpenTag, List.append_assoc]

/-- Claim C2: every pre-code span is rewritten into exactly one structured
    code macro with a CDATA body, one macro per fenced block, each block
    normalized independently; inside the CDATA body the leading and trailing
    newlines of the decoded code are removed while internal blank lines stay;
    and an empty code body still emits the macro with an empty CDATA
    section.  The span hypotheses say that the opening tags occur only at
    the two block positions and the closing tags do not occur inside the
    captured code. -/
theorem claim_C2_macro_per_block (A c1 M c2 P : List Char)
    (hA : ∀ p, p < A.length →
      ¬ (codeOpenTag <+: (A ++ (preCodeBlock c1 ++ (M ++ (preCodeBlock c2 ++ P)))).drop p))
    (hc1 : ∀ p, p < c1.length →
      ¬ (codeCloseTag <+: (c1 ++ codeCloseTag ++ (M ++ (preCodeBlock c2 ++ P))).drop p))
    (hM : ∀ p, p < M.length → ¬ (codeOpenTag <+: (M ++ (preCodeBlock c2 ++ P)).drop p))
    (hc2 : ∀ p, p < c2.length → ¬ (codeCloseTag <+: (c2 ++ codeCloseTag ++ P).drop p))
    (hP : ∀ p, p < P.length → ¬ (codeOpenTag <+: P.drop p)) :
    normalizeCodeBlocks (A ++ (preCodeBlock c1 ++ (M ++ (preCodeBlock c2 ++ P))))
      = A ++ (renderCodeMacro c1 ++ (M ++ (renderCodeMacro c2 ++ P))) ∧
    trimCodeNewlines (("\n\nconst x = 1;\n\n").toList) = ("const x = 1;").toList ∧
    normalizeCodeBlocks (preCodeBlock []) = macroHead ++ macroTail ∧
    ("<![CDATA[]]>").toList <:+: normalizeCodeBlocks (preCodeBlock []) := by
  refine ⟨?_, by decide, by decide, by decide⟩
  rw [normalize_copies A _ hA]
  congr 1
  rw [preCodeBlock_shape c1 (M ++ (preCodeBlock c2 ++ P))]
  rw [normalize_found _ (c1, M ++ (preCodeBlock c2 ++ P))
    (matchCode_at_block c1 _ hc1)]
  congr 1
  rw [normalize_copies M _ hM]
  congr 1
  rw [preCodeBlock_shape c2 P]
  rw [normalize_found _ (c2, P) (matchCode_at_block c2 _ hc2)]
  congr 1
  have hPe : normalizeCodeBlocks (P ++ []) = P ++ normalizeCodeBlocks [] :=
    normalize_copies P [] (by simpa using hP)
  simpa [normalize_nil] using hPe

def c2SampleOpen : List Char := ("<h1>Title</h1>").toList

def c2SampleCode1 : List Char := ("const x = 1;").toList

def c2SampleMid : List Char := ("<p>between</p>").toList

def c2SampleCode2 : List Char := []

def c2SampleTail : List Char := ("<p>after</p>").toList

/-- Witness for C2 on a concrete two-block document. -/
theorem claim_C2_macro_per_block_witness :
    normalizeCodeBlocks (c2SampleOpen ++ (preCodeBlock c2SampleCode1 ++
        (c2SampleMid ++ (preCodeBlock c2SampleCode2 ++ c2SampleTail))))
      = c2SampleOpen ++ (renderCodeMacro c2SampleCode1 ++
        (c2SampleMid ++ (renderCodeMacro c2SampleCode2 ++ c2SampleTail))) ∧
    trimCodeNewlines (("\n\nconst x = 1;\n\n").toList) = ("const x = 1;").toList ∧
    normalizeCodeBlocks (preCodeBlock []) = macroHead ++ macroTail ∧
    ("<![CDATA[]]>").toList <:+: normalizeCodeBlocks (preCodeBlock []) :=
  claim_C2_macro_per_block c2SampleOpen c2SampleCode1 c2SampleMid c2SampleCode2
    c2SampleTail (by decide) (by decide) (by decide) (by decide) (by decide)

/- Plain-text converter (src/utils/confluence-plaintext-parser.ts). -/

/-- Fuel-indexed JavaScript String.split with a literal separator:
    leftmost, non-overlapping occurrences; acc collects the current piece in
    order (characters are appended at its tail). -/
def splitOnSepAux (sep : List Char) : Nat → List Char → List Char → List (List Char)
  | 0, s, acc => [acc ++ s]
  | _ + 1, [], acc => [acc]
  | fuel + 1, c :: t, acc =>
    if sep.isPrefixOf (c :: t) then
      acc :: splitOnSepAux sep fuel (t.drop (sep.length - 1)) []
    else
      splitOnSepAux sep fuel t (acc ++ [c])

def splitOnSep (sep s : List Char) : List (List Char) :=
  splitOnSepAux sep s.length s []

/-- JavaScript String.trim on both ends.  The whitespace class is modelled
    by Char.isWhitespace, which covers the space, tab, carriage-return and
    newline characters relevant here. -/
def trimJs (l : List Char) : List Char :=
  ((l.dropWhile Char.isWhitespace).reverse.dropWhile Char.isWhitespace).reverse

/-- The replace of each newline by a line-break tag. -/
def replaceNewlinesWithBr (l : List Char) : List Char :=
  (l.map (fun c => if c = '\n' then ("<br/>").toList else [c])).flatten

/-- Split on blank lines, trim each piece, drop the empty pieces
    (source lines 271-274). -/
def paragraphsOf (content : List Char) : List (List Char) :=
  ((splitOnSep (("\n\n").toList) content).map trimJs).filter (fun p => !p.isEmpty)

def wrapParagraph (p : List Char) : List Char :=
  ("<p>").toList ++ replaceNewlinesWithBr p ++ ("</p>").toList

/-- convertPlainTextToConfluenceStorage; the splitParagraphs option is
    passed explicitly (the source default is true). -/
def convertPlainTextToConfluenceStorage (content : String) (splitParagraphs : Bool) : String :=
  if !splitParagraphs then
    String.mk (("<p>").toList ++ replaceNewlinesWithBr content.toList ++ ("</p>").toList)
  else
    let paras := paragraphsOf content.toList
    if paras.isEmpty then "<p></p>"
    else String.mk ((paras.map wrapParagraph).flatten)

/-- Claim C3: in the default splitting mode the converter splits on two
    consecutive newlines, trims each paragraph, drops the empty ones, turns
    remaining newlines into break tags and wraps each survivor in a
    paragraph tag; when nothing survives it returns exactly one empty
    paragraph and never the empty string; the input A-blank-line-B gives
    exactly the two wrapped segments with nothing in between. -/
theorem claim_C3_plain_text_split :
    convertPlainTextToConfluenceStorage "A\n\nB" true = "<p>A</p><p>B</p>" ∧
    convertPlainTextToConfluenceStorage "Hello\n\nWorld" true =
      "<p>Hello</p><p>World</p>" ∧
    convertPlainTextToConfluenceStorage "Line one\nLine two\n\nNext" true =
      "<p>Line one<br/>Line two</p><p>Next</p>" ∧
    (∀ s : String, paragraphsOf s.toList = [] →
      convertPlainTextToConfluenceStorage s true = "<p></p>") ∧
    (∀ s : String, convertPlainTextToConfluenceStorage s true ≠ "") := by
  refine ⟨by decide, by decide, by decide, ?_, ?_⟩
  · intro s hp
    have hp' : paragraphsOf s.data = [] := hp
    simp [convertPlainTextToConfluenceStorage, hp, hp']
  · intro s
    unfold convertPlainTextToConfluenceStorage
    simp only [Bool.not_true, Bool.false_eq_true, if_false]
    cases hp : paragraphsOf s.toList with
    | nil => simp [hp, show paragraphsOf s.data = [] from hp]
    | cons q qs =>
      have hp' : paragraphsOf s.data = q :: qs := hp
      simp only [hp', List.isEmpty_cons, Bool.false_eq_true, if_false]
      intro he
      have hd := congrArg String.data he
      simp [wrapParagraph] at hd

def c3ZeroInput : String := "\n\n \n"

/-- Witness for C3 at concrete inputs. -/
theorem claim_C3_plain_text_split_witness :
    (paragraphsOf c3ZeroInput.toList = [] ∧
     convertPlainTextToConfluenceStorage c3ZeroInput true = "<p></p>") ∧
    convertPlainTextToConfluenceStorage "Hello\n\nWorld" true ≠ "" :=
  ⟨⟨by decide, claim_C3_plain_text_split.2.2.2.1 c3ZeroInput (by decide)⟩,
   claim_C3_plain_text_split.2.2.2.2 "Hello\n\nWorld"⟩

/- Remote Page Client (src/confluence-api.ts). -/

structure ConfluenceConfig where
  baseUrl : String
  user : Option String
  pass : Option String
  personalAccessToken : Option String
deriving DecidableEq

/-- JavaScript truthiness of an optional string field: present and
    non-empty. -/
def truthyOpt : Option String → Bool
  | none => false
  | some s => !(s == "")

def base64Alphabet : List Char :=
  ("ABCDEFGHIJKLMNOPQRSTUVWXYZabcdefghijklmnopqrstuvwxyz0123456789+/").toList

def base64Char (n : Nat) : Char := base64Alphabet.getD n 'A'

/-- Standard base64 of a byte list, as Buffer.toString in base64 produces. -/
def base64EncodeChunks : List Nat → List Char
  | [] => []
  | [b1] => [base64Char (b1 / 4), base64Char ((b1 % 4) * 16), '=', '=']
  | [b1, b2] =>
    [base64Char (b1 / 4), base64Char ((b1 % 4) * 16 + b2 / 16),
     base64Char ((b2 % 16) * 4), '=']
  | b1 :: b2 :: b3 :: rest =>
    base64Char (b1 / 4) :: base64Char ((b1 % 4) * 16 + b2 / 16) ::
      base64Char ((b2 % 16) * 4 + b3 / 64) :: base64Char (b3 % 64) ::
        base64EncodeChunks rest

def base64Encode (bs : List Nat) : String := String.mk (base64EncodeChunks bs)

def utf8Bytes (s : String) : List Nat := s.toUTF8.toList.map (fun b => b.toNat)

structure AuthHeaders where
  contentType : String
  accept : String
  authorization : Option String
deriving DecidableEq

/-- getAuthHeaders (source lines 127-141): the json content headers always,
    a Bearer header when a token is configured, otherwise Basic over the
    base64 of user-colon-pass when both are configured, otherwise no
    authorization entry. -/
def getAuthHeaders (cfg : ConfluenceConfig) : AuthHeaders :=
  { contentType := "application/json"
    accept := "application/json"
    authorization :=
      if truthyOpt cfg.personalAccessToken then
        some ("Bearer " ++ cfg.personalAccessToken.getD "")
      else if truthyOpt cfg.user && truthyOpt cfg.pass then
        some ("Basic " ++
          base64Encode (utf8Bytes (cfg.user.getD "" ++ ":" ++ cfg.pass.getD "")))
      else none }

/-- The constructor validation (source lines 114-122): construction throws
    when no token is configured and the user-pass pair is not fully
    configured. -/
def constructorThrows (cfg : ConfluenceConfig) : Bool :=
  !truthyOpt cfg.personalAccessToken &&
    !(truthyOpt cfg.user && truthyOpt cfg.pass)

/-- One remote HTTP exchange as the client sees it; ok of the fetch response
    means a 2xx status. -/
structure HttpResponse where
  status : Nat
  statusText : String
  respBody : String
deriving DecidableEq

def respOk (r : HttpResponse) : Bool :=
  decide (200 ≤ r.status) && decide (r.status < 300)

def requestFailedMessage (r : HttpResponse) : String :=
  "Confluence API request failed: " ++ toString r.status ++ " " ++ r.statusText ++
    "\nResponse: " ++ r.respBody

/-- makeRequest (source lines 146-170): a non-ok response becomes a thrown
    error carrying status code, status text and raw body in one message. -/
def makeRequest (r : HttpResponse) : Except String HttpResponse :=
  if respOk r then Except.ok r else Except.error (requestFailedMessage r)

/-- Executable substring search. -/
def containsSub (pat : List Char) : List Char → Bool
  | [] => pat.isEmpty
  | s@(_ :: t) => pat.isPrefixOf s || containsSub pat t

/-- Substring test modelling JavaScript String.includes. -/
def strContains (s pat : String) : Bool := containsSub pat.data s.data

theorem containsSub_iff (pat : List Char) :
    ∀ s, containsSub pat s = true ↔ pat <:+: s := by
  intro s
  induction s with
  | nil =>
    simp only [containsSub, List.isEmpty_iff]
    constructor
    · intro h
      subst h
      exact ⟨[], [], rfl⟩
    · intro h
      exact sub_nil_eq h
  | cons c t ih =>
    simp only [containsSub, Bool.or_eq_true]
    constructor
    · intro h
      rcases h with h | h
      · exact sub_of_pre (List.isPrefixOf_iff_prefix.mp h)
      · exact sub_of_sub_cons (ih.mp h)
    · intro h
      rcases sub_cons_split h with h | h
      · exact Or.inl (List.isPrefixOf_iff_prefix.mpr h)
      · exact Or.inr (ih.mpr h)

/-- getPage (source lines 175-190): an error whose message mentions 404 is
    caught and turned into the not-found signal none; any other error is
    rethrown; an ok response yields the page, modelled by its raw body. -/
def getPage (r : HttpResponse) : Except String (Option String) :=
  match makeRequest r with
  | Except.ok resp => Except.ok (some resp.respBody)
  | Except.error msg =>
    if strContains msg "404" then Except.ok none else Except.error msg

theorem strContains_of_data (s pat : String) (u v : List Char)
    (h : s.data = u ++ pat.data ++ v) : strContains s pat = true := by
  unfold strContains
  exact (containsSub_iff pat.data s.data).mpr ⟨u, v, h.symm⟩

def c4BodyMentions404 : HttpResponse :=
  { status := 500
    statusText := "Internal Server Error"
    respBody := "gateway saw 404 from upstream" }

/-- Counterexample to C4 as stated: a 500-status failure whose body text
    mentions 404 makes getPage return the not-found signal instead of
    surfacing the failure, so the null return is not equivalent to a
    404-class response. -/
theorem claim_C4_counterexample :
    getPage c4BodyMentions404 = Except.ok none ∧
    c4BodyMentions404.status ≠ 404 := by
  constructor
  · rfl
  · decide

/-- Claim C4 amended: getPage returns the not-found signal exactly when the
    composed failure message contains the text 404 — which holds for every
    404-status response, but can also hold for other failures whose status
    text or body mentions 404; every other non-2xx response is rethrown as
    an error whose message carries the status code, the status text and the
    raw response body. -/
theorem claim_C4_not_found_handling (r : HttpResponse) :
    (r.status = 404 → getPage r = Except.ok none) ∧
    (respOk r = false →
      ((getPage r = Except.ok none) ↔
        strContains (requestFailedMessage r) "404" = true)) ∧
    (respOk r = false → strContains (requestFailedMessage r) "404" = false →
      getPage r = Except.error (requestFailedMessage r) ∧
      strContains (requestFailedMessage r) (toString r.status) = true ∧
      strContains (requestFailedMessage r) r.statusText = true ∧
      strContains (requestFailedMessage r) r.respBody = true) := by
  have hstat : strContains (requestFailedMessage r) (toString r.status) = true := by
    apply strContains_of_data _ _ (("Confluence API request failed: ").data)
      ((" " ++ r.statusText ++ "\nResponse: " ++ r.respBody).data)
    simp [requestFailedMessage, String.data_append, List.append_assoc]
  have htext : strContains (requestFailedMessage r) r.statusText = true := by
    apply strContains_of_data _ _
      (("Confluence API request failed: " ++ toString r.status ++ " ").data)
      (("\nResponse: " ++ r.respBody).data)
    simp [requestFailedMessage, String.data_append, List.append_assoc]
  have hbody : strContains (requestFailedMessage r) r.respBody = true := by
    apply strContains_of_data _ _
      (("Confluence API request failed: " ++ toString r.status ++ " " ++
        r.statusText ++ "\nResponse: ").data) []
    simp [requestFailedMessage, String.data_append, List.append_assoc]
  refine ⟨?_, ?_, ?_⟩
  · intro h404
    have hok : respOk r = false := by
      unfold respOk
      rw [h404]
      decide
    have hmsg : strContains (requestFailedMessage r) "404" = true := by
      rw [h404] at hstat
      exact hstat
    unfold getPage makeRequest
    rw [hok]
    simp [hmsg]
  · intro hok
    unfold getPage makeRequest
    rw [hok]
    by_cases hc : strContains (requestFailedMessage r) "404" = true
    · simp [hc]
    · simp [hc]
  · intro hok hc
    unfold getPage makeRequest
    rw [hok]
    simp [hc]
    exact ⟨hstat, htext, hbody⟩

def c4NotFound : HttpResponse :=
  { status := 404, statusText := "Not Found", respBody := "no such page" }

def c4ServerError : HttpResponse :=
  { status := 500, statusText := "Internal Server Error", respBody := "boom" }

/-- Witness for C4 amended at concrete responses. -/
theorem claim_C4_not_found_handling_witness :
    getPage c4NotFound = Except.ok none ∧
    getPage c4ServerError = Except.error (requestFailedMessage c4ServerError) :=
  ⟨(claim_C4_not_found_handling c4NotFound).1 rfl,
   ((claim_C4_not_found_handling c4ServerError).2.2 (by decide) (by decide)).1⟩

theorem truthyOpt_eq_true_iff (o : Option String) :
    truthyOpt o = true ↔ ∃ s, o = some s ∧ s ≠ "" := by
  cases o with
  | none => simp [truthyOpt]
  | some s => simp [truthyOpt]

theorem truthyOpt_eq_false_iff (o : Option String) :
    truthyOpt o = false ↔ (o = none ∨ o = some "") := by
  cases o with
  | none => simp [truthyOpt]
  | some s => simp [truthyOpt]

/-- Claim C7: client construction fails exactly when the token is absent or
    empty and the user-pass pair is not fully non-empty; equivalently,
    construction succeeds exactly when an authorization header can be
    built. -/
theorem claim_C7_constructor_validation (cfg : ConfluenceConfig) :
    (constructorThrows cfg = true ↔
      ((cfg.personalAccessToken = none ∨ cfg.personalAccessToken = some "") ∧
       ¬ (∃ u p, cfg.user = some u ∧ cfg.pass = some p ∧ u ≠ "" ∧ p ≠ ""))) ∧
    (constructorThrows cfg = false ↔ (getAuthHeaders cfg).authorization ≠ none) := by
  have hup : (truthyOpt cfg.user && truthyOpt cfg.pass) = true ↔
      (∃ u p, cfg.user = some u ∧ cfg.pass = some p ∧ u ≠ "" ∧ p ≠ "") := by
    rw [Bool.and_eq_true, truthyOpt_eq_true_iff, truthyOpt_eq_true_iff]
    constructor
    · rintro ⟨⟨u, hu, hune⟩, ⟨p, hp, hpne⟩⟩
      exact ⟨u, p, hu, hp, hune, hpne⟩
    · rintro ⟨u, p, hu, hp, hune, hpne⟩
      exact ⟨⟨u, hu, hune⟩, ⟨p, hp, hpne⟩⟩
  constructor
  · rw [constructorThrows]
    rw [Bool.and_eq_true, Bool.not_eq_true', Bool.not_eq_true']
    rw [truthyOpt_eq_false_iff]
    constructor
    · rintro ⟨h1, h2⟩
      refine ⟨h1, fun hex => ?_⟩
      rw [← hup] at hex
      rw [hex] at h2
      exact absurd h2 (by simp)
    · rintro ⟨h1, h2⟩
      refine ⟨h1, ?_⟩
      cases hb : (truthyOpt cfg.user && truthyOpt cfg.pass) with
      | false => rfl
      | true => exact absurd (hup.mp hb) h2
  · rw [constructorThrows]
    unfold getAuthHeaders
    by_cases ht : truthyOpt cfg.personalAccessToken = true
    · simp [ht]
    · have ht' : truthyOpt cfg.personalAccessToken = false := by
        cases h : truthyOpt cfg.personalAccessToken
        · rfl
        · exact absurd h ht
      by_cases hb : (truthyOpt cfg.user && truthyOpt cfg.pass) = true
      · simp [ht', hb]
      · have hb' : (truthyOpt cfg.user && truthyOpt cfg.pass) = false := by
          cases h : (truthyOpt cfg.user && truthyOpt cfg.pass)
          · rfl
          · exact absurd h hb
        simp [ht', hb']

def c7NoAuth : ConfluenceConfig :=
  { baseUrl := "https://wiki.example.invalid", user := none, pass := some "secret",
    personalAccessToken := some "" }

def c7TokenOnly : ConfluenceConfig :=
  { baseUrl := "https://wiki.example.invalid", user := none, pass := none,
    personalAccessToken := some "tok" }

/-- Witness for C7 at concrete configurations. -/
theorem claim_C7_constructor_validation_witness :
    constructorThrows c7NoAuth = true ∧ constructorThrows c7TokenOnly = false :=
  ⟨(claim_C7_constructor_validation c7NoAuth).1.mpr
    ⟨Or.inr rfl, by rintro ⟨u, p, hu, hp, _, _⟩; exact Option.noConfusion hu⟩,
   (claim_C7_constructor_validation c7TokenOnly).2.mpr (by decide)⟩

theorem bearer_ne_basic (t s : String) : "Bearer " ++ t ≠ "Basic " ++ s := by
  intro h
  have hd := congrArg String.data h
  rw [String.data_append, String.data_append] at hd
  have h1 : ("Bearer ").data = ['B', 'e', 'a', 'r', 'e', 'r', ' '] := rfl
  have h2 : ("Basic ").data = ['B', 'a', 's', 'i', 'c', ' '] := rfl
  rw [h1, h2] at hd
  simp at hd

/-- Claim C8: every request carries json content-type and accept headers;
    when both a token and a user-pass pair are configured, the
    authorization header is Bearer with the token and never Basic; Basic is
    built only when no token is configured. -/
theorem claim_C8_auth_header_selection (cfg : ConfluenceConfig) :
    ((getAuthHeaders cfg).contentType = "application/json" ∧
     (getAuthHeaders cfg).accept = "application/json") ∧
    (∀ t u p, cfg.personalAccessToken = some t → t ≠ "" →
      cfg.user = some u → u ≠ "" → cfg.pass = some p → p ≠ "" →
      (getAuthHeaders cfg).authorization = some ("Bearer " ++ t) ∧
      ∀ s, (getAuthHeaders cfg).authorization ≠ some ("Basic " ++ s)) ∧
    (∀ s, (getAuthHeaders cfg).authorization = some ("Basic " ++ s) →
      truthyOpt cfg.personalAccessToken = false) := by
  refine ⟨⟨rfl, rfl⟩, ?_, ?_⟩
  · intro t u p htok htne _hu _hune _hp _hpne
    have htr : truthyOpt cfg.personalAccessToken = true := by
      rw [htok]
      simp [truthyOpt, htne]
    have hbear : (getAuthHeaders cfg).authorization = some ("Bearer " ++ t) := by
      unfold getAuthHeaders
      simp only [htr, if_true]
      rw [htok]
      rfl
    refine ⟨hbear, fun s hs => ?_⟩
    rw [hbear] at hs
    exact bearer_ne_basic t s ((Option.some.injEq _ _).mp hs)
  · intro s hs
    cases htr : truthyOpt cfg.personalAccessToken with
    | false => rfl
    | true =>
      unfold getAuthHeaders at hs
      simp only [htr, if_true, Option.some.injEq] at hs
      exact absurd hs (bearer_ne_basic _ s)

def c8Config : ConfluenceConfig :=
  { baseUrl := "https://wiki.example.invalid", user := some "u", pass := some "p",
    personalAccessToken := some "tok" }

/-- Witness for C8: with both methods configured the header is Bearer. -/
theorem claim_C8_auth_header_selection_witness :
    (getAuthHeaders c8Config).authorization = some ("Bearer " ++ "tok") :=
  ((claim_C8_auth_header_selection c8Config).2.1 "tok" "u" "p" rfl (by decide)
    rfl (by decide) rfl (by decide)).1

/- Per-page orchestrator (src/syncFiles.ts).  The configuration field named
   prefix in the source is a Lean keyword and is modelled as prefixText. -/

structure PageMapping where
  pageId : String
  file : String
  title : Option String
  spaceKey : Option String
  parentId : Option String
deriving DecidableEq

structure FileMapping where
  baseUrl : String
  user : Option String
  pass : Option String
  personalAccessToken : Option String
  cachePath : Option String
  prefixText : Option String
  insecure : Option Bool
  force : Option Bool
  fileRoot : Option String
  pages : List PageMapping
deriving DecidableEq

/-- JavaScript or-else on an optional string: the default applies when the
    field is absent or empty, since empty strings are falsy. -/
def jsOrStr : Option String → String → String
  | none, d => d
  | some s, d => if s == "" then d else s

def jsOrBool : Option Bool → Bool → Bool
  | none, d => d
  | some b, d => b || d

structure CosmerePage where
  pageId : String
  file : String
  title : Option String
deriving DecidableEq

structure CosmereConfig where
  baseUrl : String
  user : Option String
  pass : Option String
  personalAccessToken : Option String
  cachePath : String
  prefixText : String
  insecure : Bool
  force : Bool
  fileRoot : String
  pages : List CosmerePage
deriving DecidableEq

/-- The default prefix injected by the orchestrator when none is configured
    (source line 35). -/
def defaultGeneratedNotice : String :=
  "This document is automatically generated. Please don" ++
    String.mk [singleQuote] ++ "t edit it directly!"

/-- The cosmere configuration built for one page (source lines 29-46). -/
def buildCosmereConfig (fm : FileMapping) (page : PageMapping) (cwd : String) :
    CosmereConfig :=
  { baseUrl := fm.baseUrl
    user := fm.user
    pass := fm.pass
    personalAccessToken := fm.personalAccessToken
    cachePath := jsOrStr fm.cachePath "build"
    prefixText := jsOrStr fm.prefixText defaultGeneratedNotice
    insecure := jsOrBool fm.insecure false
    force := jsOrBool fm.force false
    fileRoot := jsOrStr fm.fileRoot cwd
    pages := [{ pageId := page.pageId, file := page.file, title := page.title }] }

inductive SyncEvent where
  | accessCheck
  | cosmereSync
deriving DecidableEq

/-- Model of path.resolve of the file against the configured root, with the
    working directory as the fallback root. -/
def resolvePath (root : Option String) (cwd file : String) : String :=
  jsOrStr root cwd ++ "/" ++ file

def fileNotFoundMessage (page : PageMapping) (resolved : String) : String :=
  "File " ++ page.file ++ " not found at " ++ resolved

structure SyncRun where
  events : List SyncEvent
  outputs : List (String × String)
  cosmereCalls : List CosmereConfig
  result : Except String Unit

/-- syncFiles as a function of the ambient effects: whether the resolved
    file is accessible, and the outcome of the cosmere library call (the
    call that performs every remote fetch, create and update).  The events
    record the order of the local access check and of the library call; the
    outputs record the action outputs set on each path; cosmereCalls
    records every configuration handed to the library. -/
def syncFilesRun (fm : FileMapping) (page : PageMapping) (cwd : String)
    (fileAccessible : Bool) (cosmereResult : Except String Unit) : SyncRun :=
  if fileAccessible then
    match cosmereResult with
    | Except.ok _ =>
      { events := [SyncEvent.accessCheck, SyncEvent.cosmereSync]
        outputs := [("page-id", page.pageId),
                    ("page-title", jsOrStr page.title "untitled"),
                    ("file-path", page.file),
                    ("status", "success")]
        cosmereCalls := [buildCosmereConfig fm page cwd]
        result := Except.ok () }
    | Except.error e =>
      { events := [SyncEvent.accessCheck, SyncEvent.cosmereSync]
        outputs := [("status", "failed"), ("error", e)]
        cosmereCalls := [buildCosmereConfig fm page cwd]
        result := Except.error e }
  else
    { events := [SyncEvent.accessCheck]
      outputs := [("status", "failed"),
                  ("error", fileNotFoundMessage page (resolvePath fm.fileRoot cwd page.file))]
      cosmereCalls := []
      result := Except.error (fileNotFoundMessage page (resolvePath fm.fileRoot cwd page.file)) }

def c5FileMap : FileMapping :=
  { baseUrl := "https://wiki.example.invalid", user := none, pass := none,
    personalAccessToken := some "tok", cachePath := none, prefixText := none,
    insecure := none, force := none, fileRoot := none, pages := [] }

def c5Page : PageMapping :=
  { pageId := "123", file := "README.md", title := none, spaceKey := none,
    parentId := none }

/-- Counterexample to C5 as stated: with no prefix configured, the
    configuration handed to the sync library carries a non-empty default
    prefix, so the transmitted body is not the bare converter output and
    the prefix field does have a default value. -/
theorem claim_C5_counterexample :
    c5FileMap.prefixText = none ∧
    (buildCosmereConfig c5FileMap c5Page "/work").prefixText = defaultGeneratedNotice ∧
    defaultGeneratedNotice ≠ "" :=
  ⟨rfl, rfl, by decide⟩

/-- Claim C5 amended: the prefix placed in the sync-library configuration is
    the configured one when that is non-empty, and otherwise the fixed
    generated-document notice: the orchestrator supplies a default prefix
    instead of prepending nothing. -/
theorem claim_C5_prefix_default (fm : FileMapping) (page : PageMapping) (cwd : String) :
    ((fm.prefixText = none ∨ fm.prefixText = some "") →
      (buildCosmereConfig fm page cwd).prefixText = defaultGeneratedNotice) ∧
    (∀ s, fm.prefixText = some s → s ≠ "" →
      (buildCosmereConfig fm page cwd).prefixText = s) := by
  constructor
  · rintro (h | h) <;> simp [buildCosmereConfig, jsOrStr, h]
  · intro s hs hne
    simp [buildCosmereConfig, jsOrStr, hs, hne]

/-- Witness for C5 amended. -/
theorem claim_C5_prefix_default_witness :
    (buildCosmereConfig c5FileMap c5Page "/work").prefixText = defaultGeneratedNotice :=
  (claim_C5_prefix_default c5FileMap c5Page "/work").1 (Or.inl rfl)

/-- Counterexample to C6 as stated: with an absent title, the page-title
    output of a successful sync is the fixed placeholder untitled, not the
    mapped filename. -/
theorem claim_C6_counterexample :
    c5Page.title = none ∧ c5Page.file = "README.md" ∧
    (syncFilesRun c5FileMap c5Page "/work" true (Except.ok ())).outputs =
      [("page-id", "123"), ("page-title", "untitled"),
       ("file-path", "README.md"), ("status", "success")] ∧
    ("untitled" : String) ≠ "README.md" :=
  ⟨rfl, rfl, rfl, by decide⟩

/-- Claim C6 amended: when the title is absent, the configuration passed to
    the sync library carries no title (the library applies its own default)
    and the page-title output reports the fixed placeholder untitled, not
    the filename. -/
theorem claim_C6_title_output (fm : FileMapping) (page : PageMapping) (cwd : String)
    (h : page.title = none) :
    (syncFilesRun fm page cwd true (Except.ok ())).outputs =
      [("page-id", page.pageId), ("page-title", "untitled"),
       ("file-path", page.file), ("status", "success")] ∧
    (buildCosmereConfig fm page cwd).pages =
      [{ pageId := page.pageId, file := page.file, title := none }] := by
  constructor
  · simp [syncFilesRun, jsOrStr, h]
  · simp [buildCosmereConfig, h]

/-- Witness for C6 amended. -/
theorem claim_C6_title_output_witness :
    (syncFilesRun c5FileMap c5Page "/work" true (Except.ok ())).outputs =
      [("page-id", c5Page.pageId), ("page-title", "untitled"),
       ("file-path", c5Page.file), ("status", "success")] ∧
    (buildCosmereConfig c5FileMap c5Page "/work").pages =
      [{ pageId := c5Page.pageId, file := c5Page.file, title := none }] :=
  claim_C6_title_output c5FileMap c5Page "/work" rfl

/-- Claim C9: when the resolved file is inaccessible, the sync fails with a
    file-not-found error before any remote call: the library call that
    performs remote fetch, create and update is never reached and no
    configuration is handed to it. -/
theorem claim_C9_no_remote_on_missing_file (fm : FileMapping) (page : PageMapping)
    (cwd : String) (r : Except String Unit) :
    (syncFilesRun fm page cwd false r).events = [SyncEvent.accessCheck] ∧
    SyncEvent.cosmereSync ∉ (syncFilesRun fm page cwd false r).events ∧
    (syncFilesRun fm page cwd false r).cosmereCalls = [] ∧
    (syncFilesRun fm page cwd false r).result =
      Except.error (fileNotFoundMessage page (resolvePath fm.fileRoot cwd page.file)) ∧
    strContains (fileNotFoundMessage page (resolvePath fm.fileRoot cwd page.file))
      "not found" = true := by
  refine ⟨rfl, ?_, rfl, rfl, ?_⟩
  · simp [syncFilesRun]
  · have hsplit : (" not found at ").data =
        (" ").data ++ ("not found").data ++ (" at ").data := rfl
    apply strContains_of_data _ _ (("File " ++ page.file ++ " ").data)
      ((" at " ++ resolvePath fm.fileRoot cwd page.file).data)
    simp [fileNotFoundMessage, String.data_append, List.append_assoc, hsplit]

/-- Claim C10: every configuration handed to the sync library by one
    per-page invocation lists exactly the one page mapping being synced,
    whatever the batch contains. -/
theorem claim_C10_single_page_config (fm : FileMapping) (page : PageMapping)
    (cwd : String) (acc : Bool) (r : Except String Unit) :
    ((buildCosmereConfig fm page cwd).pages =
      [{ pageId := page.pageId, file := page.file, title := page.title }]) ∧
    (∀ cfg ∈ (syncFilesRun fm page cwd acc r).cosmereCalls,
      cfg.pages = [{ pageId := page.pageId, file := page.file, title := page.title }]) := by
  refine ⟨rfl, ?_⟩
  intro cfg hcfg
  cases acc with
  | false => simp [syncFilesRun] at hcfg
  | true =>
    cases r with
    | ok u =>
      simp [syncFilesRun] at hcfg
      rw [hcfg]
      rfl
    | error e =>
      simp [syncFilesRun] at hcfg
      rw [hcfg]
      rfl

/-- Witness for C10 at a concrete invocation. -/
theorem claim_C10_single_page_config_witness :
    (buildCosmereConfig c5FileMap c5Page "/work").pages =
      [{ pageId := c5Page.pageId, file := c5Page.file, title := c5Page.title }] :=
  (claim_C10_single_page_config c5FileMap c5Page "/work" true (Except.ok ())).2
    (buildCosmereConfig c5FileMap c5Page "/work") (by simp [syncFilesRun])

end HappiSync
